import Mathlib

/-!
Verification of the tree mutation and consistency model of the feynman-ai-tutor
client.  The Tree Store mutations live in src/store/useStore.ts; the derived
view engine (focused view, breadcrumb path) and the layout overlap test live in
src/app/components/LearningTree.tsx.  They are embedded here as pure functions
over an explicit store state.

Modelling conventions:
* Remote persistence (saveTreeToSupabase) is modelled by a boolean `saveOk`
  passed to each mutation; the source awaits the save and either keeps the
  optimistic update (success), or restores the snapshot and re-raises the
  error (failure).  `MutResult.ok` is a committed mutation, `MutResult.aborted`
  is a silent early return (logged, no error thrown), and `MutResult.failed`
  is a rolled-back mutation whose error is re-raised to the caller.
* JavaScript truthiness tests on strings (the empty string is falsy) are
  modelled explicitly wherever the source relies on them
  (`if (!currentTreeId)`, `focusedNodeId ? _ : _`,
  `while (currentNode && currentNode.parentId)`, `!descendant.parentId`).
* Unbounded recursion and while loops in the source (findChildren, isAncestor,
  the breadcrumb walk) are modelled with an explicit step budget (fuel);
  returning `none` / falling back models divergence of the source.
-/

/-- 2D coordinate used purely for layout (TreeNode.position in useStore.ts). -/
structure Pos where
  x : Int
  y : Int
deriving DecidableEq

/-- The TreeNode interface of src/store/useStore.ts. -/
structure TreeNode where
  id : String
  label : String
  description : Option String
  parentId : Option String
  position : Pos
deriving DecidableEq

/-- The slice of the zustand store state the mutations read and write. -/
structure StoreState where
  currentTreeId : Option String
  nodes : List TreeNode
deriving DecidableEq

/-- JavaScript truthiness of a `string | null` value: null and the empty
string are falsy. -/
def truthy : Option String → Bool
  | none => false
  | some s => !(s == "")

/-- `nodes.find((n) => n.id === i)`. -/
def findById (nodes : List TreeNode) (i : String) : Option TreeNode :=
  nodes.find? (fun n => n.id == i)

/-- Outcome of one store mutation: `ok` commits the optimistic update,
`aborted` is a silent early return (no error raised), `failed` is a
persistence failure after which the snapshot is restored and the error is
re-raised to the caller.  Each constructor carries the node set the store
holds when the call finishes. -/
inductive MutResult where
  | ok (nodes : List TreeNode)
  | aborted (nodes : List TreeNode)
  | failed (nodes : List TreeNode)
deriving DecidableEq

/-- The node set the store holds after the mutation finishes. -/
def MutResult.nodesOf : MutResult → List TreeNode
  | .ok nodes => nodes
  | .aborted nodes => nodes
  | .failed nodes => nodes

/-- addNode of useStore.ts.  `newId` stands for the value produced by
crypto.randomUUID(). -/
def addNode (saveOk : Bool) (newId parentId : String) (s : StoreState) : MutResult :=
  if !truthy s.currentTreeId then .aborted s.nodes else
  match findById s.nodes parentId with
  | none => .aborted s.nodes
  | some parentNode =>
    let newNode : TreeNode :=
      { id := newId, label := "新節點", description := none, parentId := some parentId,
        position := { x := parentNode.position.x + 50, y := parentNode.position.y + 50 } }
    let updatedNodes := s.nodes ++ [newNode]
    if saveOk then .ok updatedNodes else .failed s.nodes

/-- The recursive findChildren helper inside deleteNode: collects, in
iteration order, the ids of all transitive children of `parentId`.  The
source recurses without a bound; the fuel models its call depth. -/
def findChildren (nodes : List TreeNode) : Nat → String → List String
  | 0, _ => []
  | fuel + 1, parentId =>
    nodes.flatMap (fun node =>
      if node.parentId == some parentId then
        node.id :: findChildren nodes fuel node.id
      else [])

/-- `new Set([nodeId, ...findChildren(nodeId)])` of deleteNode, as a list. -/
def nodesToDelete (nodes : List TreeNode) (nodeId : String) : List String :=
  nodeId :: findChildren nodes nodes.length nodeId

/-- deleteNode of useStore.ts. -/
def deleteNode (saveOk : Bool) (nodeId : String) (s : StoreState) : MutResult :=
  if !truthy s.currentTreeId then .aborted s.nodes else
  let updatedNodes := s.nodes.filter (fun node => !(nodesToDelete s.nodes nodeId).contains node.id)
  if saveOk then .ok updatedNodes else .failed s.nodes

/-- updateNodeLabel of useStore.ts. -/
def updateNodeLabel (saveOk : Bool) (nodeId newLabel : String) (s : StoreState) : MutResult :=
  if !truthy s.currentTreeId then .aborted s.nodes else
  let updatedNodes := s.nodes.map (fun node =>
    if node.id == nodeId then { node with label := newLabel } else node)
  if saveOk then .ok updatedNodes else .failed s.nodes

/-- updateNodeDescription of useStore.ts: `newDescription || undefined`
normalizes the empty string to an absent description. -/
def updateNodeDescription (saveOk : Bool) (nodeId newDescription : String) (s : StoreState) : MutResult :=
  if !truthy s.currentTreeId then .aborted s.nodes else
  let updatedNodes := s.nodes.map (fun node =>
    if node.id == nodeId then
      { node with description := if newDescription == "" then none else some newDescription }
    else node)
  if saveOk then .ok updatedNodes else .failed s.nodes

/-- onNodeDragStop of useStore.ts: updates only the position field. -/
def onNodeDragStop (saveOk : Bool) (nodeId : String) (pos : Pos) (s : StoreState) : MutResult :=
  if !truthy s.currentTreeId then .aborted s.nodes else
  let updatedNodes := s.nodes.map (fun node =>
    if node.id == nodeId then { node with position := pos } else node)
  if saveOk then .ok updatedNodes else .failed s.nodes

/-- The recursive isAncestor helper inside reparentNode: walks the ancestor
chain upward from `descendantId` looking for `ancestorId`.  The guard
`!descendant.parentId` also stops at an empty-string parentId (falsy).  The
source recurses without a bound; the fuel models its call depth. -/
def isAncestor (nodes : List TreeNode) : Nat → String → String → Bool
  | 0, _, _ => false
  | fuel + 1, ancestorId, descendantId =>
    match findById nodes descendantId with
    | none => false
    | some descendant =>
      match descendant.parentId with
      | none => false
      | some pid =>
        if pid == "" then false
        else if pid == ancestorId then true
        else isAncestor nodes fuel ancestorId pid

/-- reparentNode of useStore.ts. -/
def reparentNode (saveOk : Bool) (nodeId newParentId : String) (s : StoreState) : MutResult :=
  if !truthy s.currentTreeId then .aborted s.nodes else
  if isAncestor s.nodes s.nodes.length nodeId newParentId then .aborted s.nodes else
  let updatedNodes := s.nodes.map (fun node =>
    if node.id == nodeId then { node with parentId := some newParentId } else node)
  if saveOk then .ok updatedNodes else .failed s.nodes

/-- One invocation of a Tree Store mutation, with the outcome of its remote
save. -/
inductive MutOp where
  | add (saveOk : Bool) (newId parentId : String)
  | del (saveOk : Bool) (nodeId : String)
  | relabel (saveOk : Bool) (nodeId newLabel : String)
  | redesc (saveOk : Bool) (nodeId newDescription : String)
  | drag (saveOk : Bool) (nodeId : String) (pos : Pos)
  | reparent (saveOk : Bool) (nodeId newParentId : String)
deriving DecidableEq

/-- Dispatch a mutation to the corresponding store operation. -/
def runOp : MutOp → StoreState → MutResult
  | .add saveOk newId parentId, s => addNode saveOk newId parentId s
  | .del saveOk nodeId, s => deleteNode saveOk nodeId s
  | .relabel saveOk nodeId newLabel, s => updateNodeLabel saveOk nodeId newLabel s
  | .redesc saveOk nodeId newDescription, s => updateNodeDescription saveOk nodeId newDescription s
  | .drag saveOk nodeId pos, s => onNodeDragStop saveOk nodeId pos s
  | .reparent saveOk nodeId newParentId, s => reparentNode saveOk nodeId newParentId s

/-- The save outcome an operation was invoked with. -/
def saveOkOf : MutOp → Bool
  | .add saveOk _ _ => saveOk
  | .del saveOk _ => saveOk
  | .relabel saveOk _ _ => saveOk
  | .redesc saveOk _ _ => saveOk
  | .drag saveOk _ _ => saveOk
  | .reparent saveOk _ _ => saveOk

/-- The store state after a mutation finishes (none of the six mutations
touches currentTreeId). -/
def applyOp (op : MutOp) (s : StoreState) : StoreState :=
  { s with nodes := (runOp op s).nodesOf }

/-- Run a sequence of mutations left to right. -/
def applyOps : List MutOp → StoreState → StoreState
  | [], s => s
  | op :: ops, s => applyOps ops (applyOp op s)

/-- Number of roots (nodes with parentId == null) in a node set. -/
def rootCount (nodes : List TreeNode) : Nat :=
  nodes.countP (fun n => n.parentId.isNone)

/-- Ids are unique within the node set (data-model invariant of the spec). -/
def UniqueIds (nodes : List TreeNode) : Prop :=
  (nodes.map TreeNode.id).Nodup

/-- `c` is the id of a node of the set whose parentId is `p`: the direct
child relation on ids. -/
def childRel (nodes : List TreeNode) (p c : String) : Prop :=
  ∃ n ∈ nodes, n.id = c ∧ n.parentId = some p

/-- `NodeDepth nodes i d`: the node with id `i` lies at depth `d`, i.e. its
parentId chain reaches a root in exactly `d` hops. -/
inductive NodeDepth (nodes : List TreeNode) : String → Nat → Prop
  | root (n : TreeNode) (hn : n ∈ nodes) (hp : n.parentId = none) :
      NodeDepth nodes n.id 0
  | step (n : TreeNode) (p : String) (d : Nat) (hn : n ∈ nodes)
      (hp : n.parentId = some p) (hd : NodeDepth nodes p d) :
      NodeDepth nodes n.id (d + 1)

/-- The ancestor chain of every node terminates within a number of hops strictly
bounded by the node count (data-model invariant of the spec). -/
def BoundedDepths (nodes : List TreeNode) : Prop :=
  ∀ m ∈ nodes, ∃ d, d < nodes.length ∧ NodeDepth nodes m.id d

/-- getFocusedNodes of LearningTree.tsx: the focused node plus its direct
children; `!focusNodeId` is the JavaScript falsiness test. -/
def getFocusedNodes (focusNodeId : String) (allNodes : List TreeNode) : List TreeNode :=
  if focusNodeId == "" then allNodes else
  match findById allNodes focusNodeId with
  | none => allNodes
  | some focusNode => focusNode :: allNodes.filter (fun n => n.parentId == some focusNodeId)

/-- getDefaultFocusedNodes of LearningTree.tsx: the root plus its direct
children. -/
def getDefaultFocusedNodes (allNodes : List TreeNode) : List TreeNode :=
  if allNodes.isEmpty then [] else
  match allNodes.find? (fun n => n.parentId.isNone) with
  | none => allNodes
  | some rootNode => rootNode :: allNodes.filter (fun n => n.parentId == some rootNode.id)

/-- The effectiveData computation of LearningTree.tsx:
`focusedNodeId ? getFocusedNodes(focusedNodeId, allNodes)
              : getDefaultFocusedNodes(allNodes)`.
A null or empty-string focus id (both falsy) selects the default view. -/
def focusedView (focusedNodeId : Option String) (allNodes : List TreeNode) : List TreeNode :=
  match focusedNodeId with
  | none => getDefaultFocusedNodes allNodes
  | some fid =>
    if fid == "" then getDefaultFocusedNodes allNodes
    else getFocusedNodes fid allNodes

/-- The while loop of calculateBreadcrumbPath: walks parentId links upward,
unshifting each found parent.  The loop condition
`currentNode && currentNode.parentId` exits on a null or empty-string
parentId; a parent id that does not resolve breaks out of the loop.  The
source loops without a bound; `none` means the step budget was exhausted,
i.e. the source would still be looping. -/
def breadcrumbWalk (nodes : List TreeNode) : Nat → TreeNode → List TreeNode → Option (List TreeNode)
  | 0, _, _ => none
  | fuel + 1, currentNode, path =>
    match currentNode.parentId with
    | none => some path
    | some pid =>
      if pid == "" then some path
      else
        match findById nodes pid with
        | none => some path
        | some parent => breadcrumbWalk nodes fuel parent (parent :: path)

/-- calculateBreadcrumbPath of LearningTree.tsx: the ancestor chain of
nodeId from the top down, with the node of nodeId itself appended at the
end. -/
def calculateBreadcrumbPath (nodes : List TreeNode) (fuel : Nat) (nodeId : String) : Option (List TreeNode) :=
  match findById nodes nodeId with
  | none => some []
  | some currentNode =>
    (breadcrumbWalk nodes fuel currentNode []).map (fun path => path ++ [currentNode])

/-- Default node width of LearningTree.tsx. -/
def nodeWidth : Int := 80

/-- Default node height of LearningTree.tsx. -/
def nodeHeight : Int := 80

/-- A React Flow layout node as used by isNodeIntersecting: a position and
optional measured width/height. -/
structure LayoutNode where
  position : Pos
  width : Option Int
  height : Option Int
deriving DecidableEq

/-- `node.width || nodeWidth`: null/undefined and 0 (falsy) fall back to the
default. -/
def orDefault (v : Option Int) (d : Int) : Int :=
  match v with
  | none => d
  | some w => if w == 0 then d else w

/-- isNodeIntersecting of LearningTree.tsx: axis-aligned bounding-box overlap
test between two layout nodes. -/
def isNodeIntersecting (node1 node2 : LayoutNode) : Bool :=
  let node1Left := node1.position.x
  let node1Right := node1.position.x + orDefault node1.width nodeWidth
  let node1Top := node1.position.y
  let node1Bottom := node1.position.y + orDefault node1.height nodeHeight
  let node2Left := node2.position.x
  let node2Right := node2.position.x + orDefault node2.width nodeWidth
  let node2Top := node2.position.y
  let node2Bottom := node2.position.y + orDefault node2.height nodeHeight
  !(decide (node1Right < node2Left) || decide (node1Left > node2Right) ||
    decide (node1Bottom < node2Top) || decide (node1Top > node2Bottom))

/-- Side conditions on one mutation under which the one-root invariant is
preserved: addNode ids are fresh (the source draws them from
crypto.randomUUID()), and neither deleteNode nor reparentNode is invoked on
the id of a root. -/
def OpOk : MutOp → StoreState → Prop
  | .add _ newId _, s => newId ∉ s.nodes.map TreeNode.id
  | .del _ nodeId, s => ∀ r ∈ s.nodes, r.parentId = none → r.id ≠ nodeId
  | .reparent _ nodeId _, s => ∀ r ∈ s.nodes, r.parentId = none → r.id ≠ nodeId
  | _, _ => True

/-- Every mutation of the sequence satisfies its side condition in the state
it actually runs in. -/
def SeqOk : List MutOp → StoreState → Prop
  | [], _ => True
  | op :: ops, s => OpOk op s ∧ SeqOk ops (applyOp op s)

/-- The precondition checks an operation performs before it attempts the
remote save, exactly as the source tests them: a truthy currentTreeId for all
six operations, a resolvable parent for addNode, and a passing cycle check
for reparentNode. -/
def Preconds : MutOp → StoreState → Prop
  | .add _ _ parentId, s =>
      truthy s.currentTreeId = true ∧ (findById s.nodes parentId).isSome = true
  | .reparent _ nodeId newParentId, s =>
      truthy s.currentTreeId = true ∧
        isAncestor s.nodes s.nodes.length nodeId newParentId = false
  | _, s => truthy s.currentTreeId = true

/-! ### Basic facts about unique ids and findById -/

/-- In a node set with unique ids, two members with the same id are equal. -/
theorem eq_of_mem_of_id_eq {nodes : List TreeNode} (hu : UniqueIds nodes)
    {a b : TreeNode} (ha : a ∈ nodes) (hb : b ∈ nodes) (hid : a.id = b.id) : a = b := by
  induction nodes with
  | nil => cases ha
  | cons h t ih =>
    have hu' : h.id ∉ t.map TreeNode.id ∧ (t.map TreeNode.id).Nodup := by
      simpa [UniqueIds, List.nodup_cons] using hu
    rw [List.mem_cons] at ha hb
    rcases ha with rfl | ha <;> rcases hb with rfl | hb
    · rfl
    · exact absurd (hid ▸ List.mem_map_of_mem TreeNode.id hb) hu'.1
    · exact absurd (hid ▸ List.mem_map_of_mem TreeNode.id ha) hu'.1
    · exact ih hu'.2 ha hb

/-- findById only returns members carrying the requested id. -/
theorem findById_eq_some {nodes : List TreeNode} {i : String} {m : TreeNode}
    (h : findById nodes i = some m) : m ∈ nodes ∧ m.id = i := by
  refine ⟨List.mem_of_find?_eq_some h, ?_⟩
  have := List.find?_some h
  simpa [beq_iff_eq] using this

/-- With unique ids, findById resolves the id of a member to that member. -/
theorem findById_of_mem {nodes : List TreeNode} (hu : UniqueIds nodes)
    {m : TreeNode} (hm : m ∈ nodes) : findById nodes m.id = some m := by
  induction nodes with
  | nil => cases hm
  | cons h t ih =>
    have hu' : h.id ∉ t.map TreeNode.id ∧ (t.map TreeNode.id).Nodup := by
      simpa [UniqueIds, List.nodup_cons] using hu
    rw [List.mem_cons] at hm
    rcases hm with rfl | hm
    · exact List.find?_cons_of_pos _ (by simp)
    · have hne : (h.id == m.id) = false := by
        refine beq_eq_false_iff_ne.mpr fun he => hu'.1 ?_
        exact he ▸ List.mem_map_of_mem TreeNode.id hm
      rw [findById, List.find?_cons_of_neg _ (by simp [hne])]
      exact ih hu'.2 hm

/-! ### NodeDepth: inversion and functionality -/

/-- Inversion for NodeDepth derivations. -/
theorem nodeDepth_cases {nodes : List TreeNode} {i : String} {d : Nat}
    (h : NodeDepth nodes i d) :
    (∃ n ∈ nodes, n.id = i ∧ n.parentId = none ∧ d = 0) ∨
    (∃ n ∈ nodes, n.id = i ∧ ∃ p e, n.parentId = some p ∧ NodeDepth nodes p e ∧ d = e + 1) := by
  cases h with
  | root n hn hp => exact Or.inl ⟨n, hn, rfl, hp, rfl⟩
  | step n p e hn hp hd => exact Or.inr ⟨n, hn, rfl, p, e, hp, hd, rfl⟩

/-- With unique ids, a member with a parent link lies one level below its
parent. -/
theorem nodeDepth_inv_step {nodes : List TreeNode} (hu : UniqueIds nodes)
    {n : TreeNode} {b : String} {dx : Nat} (hn : n ∈ nodes) (hp : n.parentId = some b)
    (hd : NodeDepth nodes n.id dx) : ∃ db, dx = db + 1 ∧ NodeDepth nodes b db := by
  rcases nodeDepth_cases hd with ⟨m, hm, hmi, hmp, rfl⟩ | ⟨m, hm, hmi, p, e, hmp, he, rfl⟩
  · have : m = n := eq_of_mem_of_id_eq hu hm hn hmi
    subst this
    rw [hp] at hmp; cases hmp
  · have : m = n := eq_of_mem_of_id_eq hu hm hn hmi
    subst this
    rw [hp] at hmp
    cases hmp
    exact ⟨e, rfl, he⟩

/-- With unique ids, a member with no parent link is at depth zero. -/
theorem nodeDepth_inv_root {nodes : List TreeNode} (hu : UniqueIds nodes)
    {n : TreeNode} {dx : Nat} (hn : n ∈ nodes) (hp : n.parentId = none)
    (hd : NodeDepth nodes n.id dx) : dx = 0 := by
  rcases nodeDepth_cases hd with ⟨m, hm, hmi, hmp, rfl⟩ | ⟨m, hm, hmi, p, e, hmp, he, rfl⟩
  · rfl
  · have : m = n := eq_of_mem_of_id_eq hu hm hn hmi
    subst this
    rw [hp] at hmp; cases hmp

/-- With unique ids, the depth of a node id is unique. -/
theorem nodeDepth_unique {nodes : List TreeNode} (hu : UniqueIds nodes)
    {i : String} {d1 d2 : Nat} (h1 : NodeDepth nodes i d1) (h2 : NodeDepth nodes i d2) :
    d1 = d2 := by
  induction h1 generalizing d2 with
  | root n hn hp => exact (nodeDepth_inv_root hu hn hp h2).symm
  | step n p d hn hp hd ih =>
    obtain ⟨db, rfl, hdb⟩ := nodeDepth_inv_step hu hn hp h2
    rw [ih hdb]

/-! ### The descendant relation and findChildren -/

/-- Head decomposition of a transitive closure. -/
theorem transGen_cases_head {α : Type} {r : α → α → Prop} {a c : α}
    (h : Relation.TransGen r a c) : r a c ∨ ∃ b, r a b ∧ Relation.TransGen r b c := by
  induction h using Relation.TransGen.head_induction_on with
  | base h => exact Or.inl h
  | ih h1 h2 _ => exact Or.inr ⟨_, h1, h2⟩

/-- The target of a descendant chain is the id of a member with a parent
link. -/
theorem transGen_target_mem {nodes : List TreeNode} {p x : String}
    (h : Relation.TransGen (childRel nodes) p x) :
    ∃ m ∈ nodes, m.id = x ∧ ∃ b, m.parentId = some b := by
  cases h with
  | single h1 =>
    obtain ⟨n, hn, rfl, hp⟩ := h1
    exact ⟨n, hn, rfl, _, hp⟩
  | tail h1 h2 =>
    obtain ⟨n, hn, rfl, hp⟩ := h2
    exact ⟨n, hn, rfl, _, hp⟩

/-- With unique ids, a strict descendant lies strictly deeper than its
ancestor. -/
theorem depth_lt_of_transGen {nodes : List TreeNode} (hu : UniqueIds nodes)
    {p x : String} {dp : Nat} (hp : NodeDepth nodes p dp)
    (h : Relation.TransGen (childRel nodes) p x) :
    ∀ dx, NodeDepth nodes x dx → dp < dx := by
  induction h with
  | single h1 =>
    intro dx hdx
    obtain ⟨n, hn, rfl, hpar⟩ := h1
    obtain ⟨db, rfl, hdb⟩ := nodeDepth_inv_step hu hn hpar hdx
    have : db = dp := nodeDepth_unique hu hdb hp
    omega
  | tail h1 h2 ih =>
    intro dx hdx
    obtain ⟨n, hn, rfl, hpar⟩ := h2
    obtain ⟨db, rfl, hdb⟩ := nodeDepth_inv_step hu hn hpar hdx
    have := ih db hdb
    omega

/-- Everything findChildren collects is a strict descendant (any fuel). -/
theorem findChildren_sound {nodes : List TreeNode} {x : String} :
    ∀ {fuel : Nat} {p : String}, x ∈ findChildren nodes fuel p →
      Relation.TransGen (childRel nodes) p x := by
  intro fuel
  induction fuel with
  | zero => intro p h; cases h
  | succ f ih =>
    intro p h
    rw [findChildren, List.mem_flatMap] at h
    obtain ⟨node, hnode, hx⟩ := h
    by_cases hc : (node.parentId == some p) = true
    · rw [if_pos hc] at hx
      have hpar : node.parentId = some p := by simpa [beq_iff_eq] using hc
      rcases List.mem_cons.mp hx with rfl | hx
      · exact Relation.TransGen.single ⟨node, hnode, rfl, hpar⟩
      · exact Relation.TransGen.head ⟨node, hnode, rfl, hpar⟩ (ih hx)
    · rw [if_neg hc] at hx; cases hx

/-- With unique ids, findChildren collects every strict descendant whose
depth fits in the fuel. -/
theorem findChildren_complete {nodes : List TreeNode} (hu : UniqueIds nodes) :
    ∀ (fuel : Nat) (p x : String) (dp dx : Nat),
      NodeDepth nodes p dp → NodeDepth nodes x dx →
      Relation.TransGen (childRel nodes) p x → dx ≤ fuel + dp →
      x ∈ findChildren nodes fuel p := by
  intro fuel
  induction fuel with
  | zero =>
    intro p x dp dx hdp hdx h hle
    have := depth_lt_of_transGen hu hdp h dx hdx
    omega
  | succ f ih =>
    intro p x dp dx hdp hdx h hle
    rcases transGen_cases_head h with h1 | ⟨y, h1, h2⟩
    · obtain ⟨n, hn, rfl, hpar⟩ := h1
      rw [findChildren, List.mem_flatMap]
      exact ⟨n, hn, by rw [hpar]; simp⟩
    · obtain ⟨n, hn, rfl, hpar⟩ := h1
      have hdy : NodeDepth nodes n.id (dp + 1) := NodeDepth.step n p dp hn hpar hdp
      have hmem : x ∈ findChildren nodes f n.id :=
        ih n.id x (dp + 1) dx hdy hdx h2 (by omega)
      rw [findChildren, List.mem_flatMap]
      refine ⟨n, hn, ?_⟩
      rw [hpar]
      simpa using Or.inr hmem

/-- List.contains in terms of membership. -/
theorem contains_eq_true_iff {l : List String} {a : String} :
    l.contains a = true ↔ a ∈ l := by simp

/-- Negative form of contains_eq_true_iff. -/
theorem contains_eq_false_iff {l : List String} {a : String} :
    l.contains a = false ↔ a ∉ l := by
  constructor
  · intro h hm
    have := contains_eq_true_iff.mpr hm
    rw [h] at this; cases this
  · intro h
    cases hc : l.contains a
    · rfl
    · exact absurd (contains_eq_true_iff.mp hc) h

/-- The delete set of deleteNode is exactly the node itself together with
its strict descendants, provided ids are unique and all depths are bounded
by the node count. -/
theorem nodesToDelete_iff {s : List TreeNode} (hu : UniqueIds s) (hb : BoundedDepths s)
    {m0 : TreeNode} {n : String} (hm : m0 ∈ s) (hid : m0.id = n) (x : String) :
    x ∈ nodesToDelete s n ↔ (x = n ∨ Relation.TransGen (childRel s) n x) := by
  constructor
  · intro h
    rcases List.mem_cons.mp h with rfl | h
    · exact Or.inl rfl
    · exact Or.inr (findChildren_sound h)
  · intro h
    rcases h with rfl | h
    · exact List.mem_cons_self _ _
    · obtain ⟨m, hmem, rfl, hbb⟩ := transGen_target_mem h
      obtain ⟨dx, hdxlt, hdx⟩ := hb m hmem
      obtain ⟨dn, hdnlt, hdn⟩ := hb m0 hm
      rw [hid] at hdn
      refine List.mem_cons_of_mem _ ?_
      exact findChildren_complete hu s.length n m.id dn dx hdn hdx h (by omega)

/-- Splitting a list by a boolean predicate preserves the total length. -/
theorem length_filter_add_length_filter_not {α : Type} (l : List α) (p : α → Bool) :
    (l.filter p).length + (l.filter (fun a => !(p a))).length = l.length := by
  induction l with
  | nil => rfl
  | cons h t ih => by_cases hp : p h <;> simp [List.filter_cons, hp] <;> omega

/-- Claim C3: on a node set forming a tree (unique ids, ancestor chains
bounded by the node count), with a tree selected and a successful save,
deleteNode removes exactly the target node and its transitive descendants
and no other node, and the removed count is the cardinality of the target
plus its descendant set. -/
theorem deleteNode_removes_exactly_subtree (s : StoreState) (n : String) (m0 : TreeNode)
    (hts : truthy s.currentTreeId = true) (hu : UniqueIds s.nodes)
    (hb : BoundedDepths s.nodes) (hm : m0 ∈ s.nodes) (hid : m0.id = n) :
    ∃ post, deleteNode true n s = MutResult.ok post ∧
      (∀ m, m ∈ post ↔ m ∈ s.nodes ∧
        ¬(m.id = n ∨ Relation.TransGen (childRel s.nodes) n m.id)) ∧
      (∀ m ∈ s.nodes,
        ((nodesToDelete s.nodes n).contains m.id = true ↔
          (m.id = n ∨ Relation.TransGen (childRel s.nodes) n m.id))) ∧
      post.length +
        (s.nodes.filter (fun m => (nodesToDelete s.nodes n).contains m.id)).length =
        s.nodes.length := by
  refine ⟨s.nodes.filter (fun node => !(nodesToDelete s.nodes n).contains node.id),
    ?_, ?_, ?_, ?_⟩
  · simp [deleteNode, hts]
  · intro m
    rw [List.mem_filter]
    constructor
    · rintro ⟨hmem, hpf⟩
      refine ⟨hmem, fun hcon => ?_⟩
      have hin : m.id ∈ nodesToDelete s.nodes n :=
        (nodesToDelete_iff hu hb hm hid m.id).mpr hcon
      rw [contains_eq_true_iff.mpr hin] at hpf
      cases hpf
    · rintro ⟨hmem, hnot⟩
      refine ⟨hmem, ?_⟩
      have hout : m.id ∉ nodesToDelete s.nodes n :=
        fun hc => hnot ((nodesToDelete_iff hu hb hm hid m.id).mp hc)
      rw [contains_eq_false_iff.mpr hout]
      rfl
  · intro m hmem
    rw [contains_eq_true_iff]
    exact nodesToDelete_iff hu hb hm hid m.id
  · have := length_filter_add_length_filter_not s.nodes
      (fun m => (nodesToDelete s.nodes n).contains m.id)
    omega

/-! ### Concrete fixtures used by witnesses and counterexamples -/

/-- A root node fixture. -/
def rNode : TreeNode :=
  { id := "r", label := "root", description := none, parentId := none, position := ⟨1, 1⟩ }

/-- A child of the root. -/
def aNode : TreeNode :=
  { id := "a", label := "A", description := none, parentId := some "r", position := ⟨2, 2⟩ }

/-- A grandchild (child of aNode). -/
def bNode : TreeNode :=
  { id := "b", label := "B", description := none, parentId := some "a", position := ⟨3, 3⟩ }

/-- A second child of the root. -/
def cNode : TreeNode :=
  { id := "c", label := "C", description := none, parentId := some "r", position := ⟨4, 4⟩ }

/-- A two-node store state: root with one child. -/
def sTwo : StoreState := { currentTreeId := some "t", nodes := [rNode, aNode] }

/-- A four-node store state: root, two children, one grandchild. -/
def sFour : StoreState := { currentTreeId := some "t", nodes := [rNode, aNode, bNode, cNode] }

/-- Depth of the root fixture in sFour. -/
theorem nodeDepth_r_sFour : NodeDepth sFour.nodes "r" 0 :=
  NodeDepth.root rNode (by decide) rfl

/-- Depth of aNode in sFour. -/
theorem nodeDepth_a_sFour : NodeDepth sFour.nodes "a" 1 :=
  NodeDepth.step aNode "r" 0 (by decide) rfl nodeDepth_r_sFour

/-- Depth of bNode in sFour. -/
theorem nodeDepth_b_sFour : NodeDepth sFour.nodes "b" 2 :=
  NodeDepth.step bNode "a" 1 (by decide) rfl nodeDepth_a_sFour

/-- Depth of cNode in sFour. -/
theorem nodeDepth_c_sFour : NodeDepth sFour.nodes "c" 1 :=
  NodeDepth.step cNode "r" 0 (by decide) rfl nodeDepth_r_sFour

/-- The sFour fixture has all depths bounded by its node count. -/
theorem boundedDepths_sFour : BoundedDepths sFour.nodes := by
  intro m hm
  rw [show sFour.nodes = [rNode, aNode, bNode, cNode] from rfl, List.mem_cons,
    List.mem_cons, List.mem_cons, List.mem_singleton] at hm
  rcases hm with rfl | rfl | rfl | rfl
  · exact ⟨0, by decide, nodeDepth_r_sFour⟩
  · exact ⟨1, by decide, nodeDepth_a_sFour⟩
  · exact ⟨2, by decide, nodeDepth_b_sFour⟩
  · exact ⟨1, by decide, nodeDepth_c_sFour⟩

/-- Witness for claim C3: deleting aNode from sFour removes exactly aNode
and its descendant bNode. -/
theorem deleteNode_removes_exactly_subtree_witness :
    ∃ post, deleteNode true "a" sFour = MutResult.ok post ∧
      (∀ m, m ∈ post ↔ m ∈ sFour.nodes ∧
        ¬(m.id = "a" ∨ Relation.TransGen (childRel sFour.nodes) "a" m.id)) ∧
      (∀ m ∈ sFour.nodes,
        ((nodesToDelete sFour.nodes "a").contains m.id = true ↔
          (m.id = "a" ∨ Relation.TransGen (childRel sFour.nodes) "a" m.id))) ∧
      post.length +
        (sFour.nodes.filter (fun m => (nodesToDelete sFour.nodes "a").contains m.id)).length =
        sFour.nodes.length :=
  deleteNode_removes_exactly_subtree sFour "a" aNode (by decide)
    (by unfold UniqueIds; decide) boundedDepths_sFour (by decide) rfl

/-! ### Preservation of the one-root invariant -/

/-- rootCount distributes over append. -/
theorem rootCount_append (l1 l2 : List TreeNode) :
    rootCount (l1 ++ l2) = rootCount l1 + rootCount l2 := by
  simp [rootCount, List.countP_append]

/-- A map that does not change whether a node is a root does not change the
root count. -/
theorem rootCount_map_eq {l : List TreeNode} {f : TreeNode → TreeNode}
    (h : ∀ n ∈ l, ((f n).parentId).isNone = (n.parentId).isNone) :
    rootCount (l.map f) = rootCount l := by
  induction l with
  | nil => rfl
  | cons hd t ih =>
    have hhd := h hd (List.mem_cons_self _ _)
    have iht := ih (fun n hn => h n (List.mem_cons_of_mem _ hn))
    simp [rootCount, List.countP_cons, hhd] at iht ⊢
    rw [iht]

/-- A filter that keeps every root does not change the root count. -/
theorem rootCount_filter_eq {l : List TreeNode} {p : TreeNode → Bool}
    (h : ∀ n ∈ l, (n.parentId).isNone = true → p n = true) :
    rootCount (l.filter p) = rootCount l := by
  induction l with
  | nil => rfl
  | cons hd t ih =>
    have iht := ih (fun n hn => h n (List.mem_cons_of_mem _ hn))
    by_cases hp : p hd = true
    · simp [List.filter_cons, hp, rootCount, List.countP_cons] at iht ⊢
      rw [iht]
    · have hroot : (hd.parentId).isNone = false := by
        cases hnn : (hd.parentId).isNone
        · rfl
        · exact absurd (h hd (List.mem_cons_self _ _) hnn) hp
      simp [List.filter_cons, hp, rootCount, List.countP_cons, hroot] at iht ⊢
      exact iht

/-- Appending a node with a fresh id preserves id uniqueness. -/
theorem uniqueIds_append_singleton {l : List TreeNode} {nd : TreeNode}
    (hu : UniqueIds l) (hfresh : nd.id ∉ l.map TreeNode.id) : UniqueIds (l ++ [nd]) := by
  rw [UniqueIds, List.map_append, List.nodup_append]
  refine ⟨hu, by simp, ?_⟩
  intro a ha hb
  simp at hb
  subst hb
  exact hfresh ha

/-- A map that does not change ids preserves id uniqueness. -/
theorem uniqueIds_map_of_id_eq {l : List TreeNode} {f : TreeNode → TreeNode}
    (h : ∀ n ∈ l, (f n).id = n.id) (hu : UniqueIds l) : UniqueIds (l.map f) := by
  rw [UniqueIds, List.map_map]
  have heq : l.map (TreeNode.id ∘ f) = l.map TreeNode.id :=
    List.map_congr_left (fun a ha => h a ha)
  rw [heq]; exact hu

/-- Filtering preserves id uniqueness. -/
theorem uniqueIds_filter {l : List TreeNode} (p : TreeNode → Bool) (hu : UniqueIds l) :
    UniqueIds (l.filter p) :=
  hu.sublist ((List.filter_sublist l).map TreeNode.id)

/-- Every id findChildren collects belongs to a member that has a parent
link. -/
theorem findChildren_shape {nodes : List TreeNode} {x : String} {fuel : Nat} {p : String}
    (h : x ∈ findChildren nodes fuel p) :
    ∃ m ∈ nodes, m.id = x ∧ ∃ b, m.parentId = some b :=
  transGen_target_mem (findChildren_sound h)

/-- One guarded mutation preserves unique ids and the one-root invariant,
whether it commits, aborts, or rolls back. -/
theorem opStep_preserves (op : MutOp) (s : StoreState)
    (hu : UniqueIds s.nodes) (h1 : rootCount s.nodes = 1) (hop : OpOk op s) :
    UniqueIds (applyOp op s).nodes ∧ rootCount (applyOp op s).nodes = 1 := by
  cases op with
  | add sv newId parentId =>
    simp only [applyOp, runOp, addNode]
    cases htr : truthy s.currentTreeId
    · exact ⟨hu, h1⟩
    · cases hf : findById s.nodes parentId
      · simp [hf, MutResult.nodesOf]; exact ⟨hu, h1⟩
      · cases sv
        · simp [hf, MutResult.nodesOf]; exact ⟨hu, h1⟩
        · simp only [hf, Bool.not_true, Bool.false_eq_true, if_false, if_true,
            MutResult.nodesOf]
          constructor
          · exact uniqueIds_append_singleton hu hop
          · rw [rootCount_append, h1]
            simp [rootCount, List.countP_cons]
  | del sv nodeId =>
    simp only [applyOp, runOp, deleteNode]
    cases htr : truthy s.currentTreeId
    · exact ⟨hu, h1⟩
    · cases sv
      · simp [MutResult.nodesOf]; exact ⟨hu, h1⟩
      · simp only [Bool.not_true, Bool.false_eq_true, if_false, if_true, MutResult.nodesOf]
        constructor
        · exact uniqueIds_filter _ hu
        · rw [rootCount_filter_eq (fun n hn hroot => ?_)]
          · exact h1
          have hnone : n.parentId = none := Option.isNone_iff_eq_none.mp hroot
          have hne : n.id ≠ nodeId := hop n hn hnone
          have hnotchild : n.id ∉ findChildren s.nodes s.nodes.length nodeId := by
            intro hin
            obtain ⟨m, hm, hmid, b, hmb⟩ := findChildren_shape hin
            have : m = n := eq_of_mem_of_id_eq hu hm hn hmid
            subst this
            rw [hnone] at hmb; cases hmb
          have hout : n.id ∉ nodesToDelete s.nodes nodeId := by
            intro hin
            rcases List.mem_cons.mp hin with h | h
            · exact hne h
            · exact hnotchild h
          rw [contains_eq_false_iff.mpr hout]
          rfl
  | relabel sv nodeId newLabel =>
    simp only [applyOp, runOp, updateNodeLabel]
    cases htr : truthy s.currentTreeId
    · exact ⟨hu, h1⟩
    · cases sv
      · simp [MutResult.nodesOf]; exact ⟨hu, h1⟩
      · simp only [Bool.not_true, Bool.false_eq_true, if_false, if_true, MutResult.nodesOf]
        constructor
        · refine uniqueIds_map_of_id_eq (fun n hn => ?_) hu
          split <;> rfl
        · rw [rootCount_map_eq (fun n hn => ?_)]
          · exact h1
          split <;> rfl
  | redesc sv nodeId newDescription =>
    simp only [applyOp, runOp, updateNodeDescription]
    cases htr : truthy s.currentTreeId
    · exact ⟨hu, h1⟩
    · cases sv
      · simp [MutResult.nodesOf]; exact ⟨hu, h1⟩
      · simp only [Bool.not_true, Bool.false_eq_true, if_false, if_true, MutResult.nodesOf]
        constructor
        · refine uniqueIds_map_of_id_eq (fun n hn => ?_) hu
          split <;> rfl
        · rw [rootCount_map_eq (fun n hn => ?_)]
          · exact h1
          split <;> rfl
  | drag sv nodeId pos =>
    simp only [applyOp, runOp, onNodeDragStop]
    cases htr : truthy s.currentTreeId
    · exact ⟨hu, h1⟩
    · cases sv
      · simp [MutResult.nodesOf]; exact ⟨hu, h1⟩
      · simp only [Bool.not_true, Bool.false_eq_true, if_false, if_true, MutResult.nodesOf]
        constructor
        · refine uniqueIds_map_of_id_eq (fun n hn => ?_) hu
          split <;> rfl
        · rw [rootCount_map_eq (fun n hn => ?_)]
          · exact h1
          split <;> rfl
  | reparent sv nodeId newParentId =>
    simp only [applyOp, runOp, reparentNode]
    cases htr : truthy s.currentTreeId
    · exact ⟨hu, h1⟩
    · cases hanc : isAncestor s.nodes s.nodes.length nodeId newParentId
      · cases sv
        · simp [hanc, MutResult.nodesOf]; exact ⟨hu, h1⟩
        · simp only [hanc, Bool.not_true, Bool.false_eq_true, if_false, if_true,
            MutResult.nodesOf]
          constructor
          · refine uniqueIds_map_of_id_eq (fun n hn => ?_) hu
            split <;> rfl
          · rw [rootCount_map_eq (fun n hn => ?_)]
            · exact h1
            by_cases hid : (n.id == nodeId) = true
            · have hid2 : n.id = nodeId := by simpa [beq_iff_eq] using hid
              have hne : n.parentId ≠ none := fun hnone => hop n hn hnone hid2
              rw [if_pos hid]
              cases hpn : n.parentId
              · exact absurd hpn hne
              · rfl
            · rw [if_neg (by simp [hid])]
      · simp [hanc, MutResult.nodesOf]; exact ⟨hu, h1⟩

/-- A guarded mutation sequence preserves unique ids and the one-root
invariant. -/
theorem seq_preserves (ops : List MutOp) :
    ∀ s : StoreState, UniqueIds s.nodes → rootCount s.nodes = 1 → SeqOk ops s →
      UniqueIds (applyOps ops s).nodes ∧ rootCount (applyOps ops s).nodes = 1 := by
  induction ops with
  | nil => intro s hu h1 _; exact ⟨hu, h1⟩
  | cons op ops ih =>
    intro s hu h1 hok
    have hok2 : OpOk op s ∧ SeqOk ops (applyOp op s) := hok
    obtain ⟨hu2, h12⟩ := opStep_preserves op s hu h1 hok2.1
    exact ih (applyOp op s) hu2 h12 hok2.2

/-- Claim C1 (amended): starting from a state with unique ids and exactly
one root, any sequence of Tree Store mutations preserves the one-root
invariant — whether each save commits, aborts, or rolls back — provided
each addNode draws a fresh id and neither deleteNode nor reparentNode is
invoked with the id of a root as the node to delete or to move.  (Unguarded,
deleting the root or self-reparenting the root empties the root set; see the
counterexample.) -/
theorem rootInvariant_preserved_of_guarded (ops : List MutOp) (s : StoreState)
    (hu : UniqueIds s.nodes) (h1 : rootCount s.nodes = 1) (hok : SeqOk ops s) :
    rootCount (applyOps ops s).nodes = 1 :=
  (seq_preserves ops s hu h1 hok).2

/-- Counterexample to claim C1 as stated: on a well-formed two-node tree
with exactly one root, the successful mutation deleteNode(r) (r the root)
leaves zero roots, and so does the successful mutation reparentNode(r, r). -/
theorem rootInvariant_counterexample :
    rootCount sTwo.nodes = 1 ∧
    rootCount (applyOp (MutOp.del true "r") sTwo).nodes = 0 ∧
    rootCount (applyOp (MutOp.reparent true "r" "r") sTwo).nodes = 0 := by
  refine ⟨?_, ?_, ?_⟩ <;> decide

/-- Witness for claim C1: a six-mutation sequence covering all six
operations (including one failed save) keeps exactly one root. -/
theorem rootInvariant_preserved_of_guarded_witness :
    rootCount (applyOps
      [MutOp.add true "x" "r", MutOp.del true "a", MutOp.relabel true "r" "R",
       MutOp.drag true "r" ⟨9, 9⟩, MutOp.redesc false "x" "D",
       MutOp.reparent true "x" "r"] sTwo).nodes = 1 :=
  rootInvariant_preserved_of_guarded _ sTwo (by unfold UniqueIds; decide) (by decide)
    (by refine ⟨?_, ?_, ?_, ?_, ?_, ?_, trivial⟩ <;> unfold OpOk <;> decide)

/-- Claim C2 is violated by the source: on a well-formed two-node tree,
reparentNode(a, a) is not rejected — the cycle check only walks the
ancestor chain of the new parent, which never contains the node itself —
so the call commits a self-parent link (a one-node cycle) instead of
failing and leaving the node set unchanged. -/
theorem reparent_self_loop :
    reparentNode true "a" "a" sTwo =
      MutResult.ok [rNode,
        { id := "a", label := "A", description := none, parentId := some "a",
          position := ⟨2, 2⟩ }] ∧
    (reparentNode true "a" "a" sTwo).nodesOf ≠ sTwo.nodes := by
  constructor <;> decide

/-- Claim C4: whenever a mutation passes its own precondition checks (so it
reaches the remote save) and the save fails, the operation finishes with
the pre-mutation node set restored verbatim and the error re-raised
(MutResult.failed). -/
theorem saveFailure_rollback (op : MutOp) (s : StoreState)
    (hpre : Preconds op s) (hfail : saveOkOf op = false) :
    runOp op s = MutResult.failed s.nodes := by
  cases op with
  | add sv newId parentId =>
    have hpre2 : truthy s.currentTreeId = true ∧ (findById s.nodes parentId).isSome = true :=
      hpre
    obtain ⟨pn, hpn⟩ := Option.isSome_iff_exists.mp hpre2.2
    have hsv : sv = false := hfail
    subst hsv
    simp [runOp, addNode, hpre2.1, hpn]
  | del sv nodeId =>
    have htr : truthy s.currentTreeId = true := hpre
    have hsv : sv = false := hfail
    subst hsv
    simp [runOp, deleteNode, htr]
  | relabel sv nodeId newLabel =>
    have htr : truthy s.currentTreeId = true := hpre
    have hsv : sv = false := hfail
    subst hsv
    simp [runOp, updateNodeLabel, htr]
  | redesc sv nodeId newDescription =>
    have htr : truthy s.currentTreeId = true := hpre
    have hsv : sv = false := hfail
    subst hsv
    simp [runOp, updateNodeDescription, htr]
  | drag sv nodeId pos =>
    have htr : truthy s.currentTreeId = true := hpre
    have hsv : sv = false := hfail
    subst hsv
    simp [runOp, onNodeDragStop, htr]
  | reparent sv nodeId newParentId =>
    have hpre2 : truthy s.currentTreeId = true ∧
        isAncestor s.nodes s.nodes.length nodeId newParentId = false := hpre
    have hsv : sv = false := hfail
    subst hsv
    simp [runOp, reparentNode, hpre2.1, hpre2.2]

/-- Witness for claim C4: a failed save of updateNodeLabel on a two-node
tree rolls back to the exact pre-mutation node set and re-raises. -/
theorem saveFailure_rollback_witness :
    runOp (MutOp.relabel false "a" "renamed") sTwo = MutResult.failed sTwo.nodes :=
  saveFailure_rollback (MutOp.relabel false "a" "renamed") sTwo
    (by unfold Preconds; decide) rfl

/-- A child whose parentId references a nonexistent node. -/
def gNode : TreeNode :=
  { id := "g", label := "G", description := none, parentId := some "ghost", position := ⟨5, 5⟩ }

/-- A store state containing a dangling parent reference. -/
def sGhost : StoreState := { currentTreeId := some "t", nodes := [rNode, gNode] }

/-- Claim C9 (amended): every mutation invoked without an active tree
(falsy currentTreeId) aborts silently with the node set unchanged, and
addNode with a parentId that does not resolve likewise aborts silently.
The other five operations do not validate their node references; see the
counterexample. -/
theorem precondition_abort_spec (op : MutOp) (s : StoreState) :
    (truthy s.currentTreeId = false → runOp op s = MutResult.aborted s.nodes) ∧
    (∀ sv newId parentId, op = MutOp.add sv newId parentId →
      findById s.nodes parentId = none → runOp op s = MutResult.aborted s.nodes) := by
  constructor
  · intro htr
    cases op <;> simp [runOp, addNode, deleteNode, updateNodeLabel, updateNodeDescription,
      onNodeDragStop, reparentNode, htr]
  · rintro sv newId parentId rfl hf
    cases htr : truthy s.currentTreeId <;> simp [runOp, addNode, htr, hf]

/-- Counterexample to claim C9 as stated: deleteNode invoked with a node id
that does not resolve is not aborted — it proceeds, removes the dangling
child of the nonexistent id, and commits a state change. -/
theorem precondition_counterexample :
    findById sGhost.nodes "ghost" = none ∧
    runOp (MutOp.del true "ghost") sGhost = MutResult.ok [rNode] ∧
    (runOp (MutOp.del true "ghost") sGhost).nodesOf ≠ sGhost.nodes := by
  refine ⟨?_, ?_, ?_⟩ <;> decide

/-- Witness for claim C9 (amended): deleteNode with no selected tree aborts
unchanged, and addNode with an unresolved parent aborts unchanged. -/
theorem precondition_abort_spec_witness :
    runOp (MutOp.del true "a") { currentTreeId := none, nodes := [rNode, aNode] } =
      MutResult.aborted [rNode, aNode] ∧
    runOp (MutOp.add true "x" "ghost") sTwo = MutResult.aborted sTwo.nodes :=
  ⟨(precondition_abort_spec (MutOp.del true "a")
      { currentTreeId := none, nodes := [rNode, aNode] }).1 rfl,
   (precondition_abort_spec (MutOp.add true "x" "ghost") sTwo).2 true "x" "ghost" rfl
      (by decide)⟩

/-- Claim C8 (amended): with a selected tree, a resolved parent, and a
fresh generated id, a successful addNode appends exactly one node carrying
the fresh id, the label 新節點 (the literal string the source stores — not
the English string "new node"), no description, the given parentId, and
the position of the parent offset by (+50, +50); all pre-existing nodes
are left in place unchanged. -/
theorem addNode_append_spec (s : StoreState) (newId parentId : String) (parentNode : TreeNode)
    (hts : truthy s.currentTreeId = true) (hp : findById s.nodes parentId = some parentNode)
    (hfresh : newId ∉ s.nodes.map TreeNode.id) :
    addNode true newId parentId s =
      MutResult.ok (s.nodes ++
        [{ id := newId, label := "新節點", description := none, parentId := some parentId,
           position := { x := parentNode.position.x + 50, y := parentNode.position.y + 50 } }]) ∧
    ∀ m ∈ s.nodes, m.id ≠ newId := by
  constructor
  · simp [addNode, hts, hp]
  · intro m hm he
    exact hfresh (he ▸ List.mem_map_of_mem TreeNode.id hm)

/-- Counterexample to claim C8 as stated: the label of the appended node is
the string 新節點, not the string "new node". -/
theorem addNode_label_counterexample :
    addNode true "c1" "r" sTwo =
      MutResult.ok (sTwo.nodes ++
        [{ id := "c1", label := "新節點", description := none, parentId := some "r",
           position := ⟨51, 51⟩ }]) ∧
    "新節點" ≠ "new node" := by
  constructor <;> decide

/-- Witness for claim C8 (amended) on the two-node fixture. -/
theorem addNode_append_spec_witness :
    addNode true "c1" "r" sTwo =
      MutResult.ok (sTwo.nodes ++
        [{ id := "c1", label := "新節點", description := none, parentId := some "r",
           position := { x := rNode.position.x + 50, y := rNode.position.y + 50 } }]) ∧
    ∀ m ∈ sTwo.nodes, m.id ≠ "c1" :=
  addNode_append_spec sTwo "c1" "r" rNode (by decide) (by decide) (by decide)

/-- Claim C10: the axis-aligned bounding-box overlap test of the layout
adapter is commutative. -/
theorem isNodeIntersecting_comm (a b : LayoutNode) :
    isNodeIntersecting a b = isNodeIntersecting b a := by
  have h : ∀ p q r t : Bool, (!(p || q || r || t)) = (!(q || p || t || r)) := by decide
  simp only [isNodeIntersecting]
  exact h _ _ _ _

/-- Claim C7 (amended): if the focus id is set, nonempty, and resolves, the
focused view is exactly the focused node plus its direct children (so 1 +
the number of direct children); if the focus id is unset — null or the
falsy empty string — the view is the root plus its direct children; if the
focus id is set, nonempty, and does not resolve, the full node set is
returned unchanged. -/
theorem focusedView_amended_spec (f : Option String) (allNodes : List TreeNode) :
    (∀ fid nd, f = some fid → fid ≠ "" → findById allNodes fid = some nd →
      focusedView f allNodes = nd :: allNodes.filter (fun n => n.parentId == some fid) ∧
      (focusedView f allNodes).length =
        1 + (allNodes.filter (fun n => n.parentId == some fid)).length) ∧
    ((f = none ∨ f = some "") →
      ∀ r, allNodes.find? (fun n => n.parentId.isNone) = some r →
        focusedView f allNodes = r :: allNodes.filter (fun n => n.parentId == some r.id)) ∧
    (∀ fid, f = some fid → fid ≠ "" → findById allNodes fid = none →
      focusedView f allNodes = allNodes) := by
  refine ⟨?_, ?_, ?_⟩
  · rintro fid nd rfl hne hf
    have hb : (fid == "") = false := beq_eq_false_iff_ne.mpr hne
    constructor
    · simp [focusedView, getFocusedNodes, hb, hf]
    · simp [focusedView, getFocusedNodes, hb, hf, Nat.add_comm]
  · rintro (rfl | rfl) r hr <;>
    · have hempty : allNodes.isEmpty = false := by
        cases allNodes
        · simp at hr
        · rfl
      simp [focusedView, getDefaultFocusedNodes, hempty, hr]
  · rintro fid rfl hne hf
    have hb : (fid == "") = false := beq_eq_false_iff_ne.mpr hne
    simp [focusedView, getFocusedNodes, hb, hf]

/-- Counterexample to claim C7 as stated: the focus id set to the empty
string does not resolve on the four-node fixture, yet the component does
not fall back to the full node set — the empty string is falsy, so the
default root view is rendered instead. -/
theorem focusedView_counterexample :
    findById sFour.nodes "" = none ∧
    focusedView (some "") sFour.nodes = [rNode, aNode, cNode] ∧
    focusedView (some "") sFour.nodes ≠ sFour.nodes := by
  refine ⟨?_, ?_, ?_⟩ <;> decide

/-- Witness for claim C7 (amended): the three clauses at concrete inputs on
the four-node fixture. -/
theorem focusedView_amended_spec_witness :
    focusedView (some "a") sFour.nodes =
      aNode :: sFour.nodes.filter (fun n => n.parentId == some "a") ∧
    focusedView none sFour.nodes =
      rNode :: sFour.nodes.filter (fun n => n.parentId == some rNode.id) ∧
    focusedView (some "zz") sFour.nodes = sFour.nodes :=
  ⟨((focusedView_amended_spec (some "a") sFour.nodes).1 "a" aNode rfl (by decide)
      (by decide)).1,
   (focusedView_amended_spec none sFour.nodes).2.1 (Or.inl rfl) rNode (by decide),
   (focusedView_amended_spec (some "zz") sFour.nodes).2.2 "zz" rfl (by decide) (by decide)⟩

/-- Specification of the breadcrumb while loop on a node set with unique
ids none of which is the empty string: started at a member at depth d with
more than d steps of budget, the walk terminates and accumulates the
strict ancestor chain of the node, top down. -/
theorem breadcrumbWalk_spec {nodes : List TreeNode} (hu : UniqueIds nodes)
    (hne : "" ∉ nodes.map TreeNode.id) :
    ∀ (d : Nat) (n : TreeNode) (acc : List TreeNode) (fuel : Nat), n ∈ nodes →
      NodeDepth nodes n.id d → d < fuel →
      ∃ l, breadcrumbWalk nodes fuel n acc = some (l ++ acc) ∧ l.length = d ∧
        List.Chain' (fun a b => b.parentId = some a.id) (l ++ [n]) ∧
        (∀ x ∈ l ++ [n], x ∈ nodes) ∧
        (∀ hd, (l ++ [n]).head? = some hd → hd.parentId = none) := by
  intro d
  induction d with
  | zero =>
    intro n acc fuel hn hd hf
    obtain ⟨fuel, rfl⟩ : ∃ f, fuel = f + 1 := ⟨fuel - 1, by omega⟩
    have hroot : n.parentId = none := by
      rcases nodeDepth_cases hd with ⟨m, hm, hmi, hmp, _⟩ | ⟨m, hm, hmi, p, e, hmp, he, hcon⟩
      · have : m = n := eq_of_mem_of_id_eq hu hm hn hmi
        subst this; exact hmp
      · cases hcon
    refine ⟨[], ?_, rfl, ?_, ?_, ?_⟩
    · simp [breadcrumbWalk, hroot]
    · simp
    · intro x hx
      simp at hx
      subst hx; exact hn
    · intro hd0 hhd0
      simp at hhd0
      subst hhd0; exact hroot
  | succ d ih =>
    intro n acc fuel hn hd hf
    obtain ⟨fuel, rfl⟩ : ∃ f, fuel = f + 1 := ⟨fuel - 1, by omega⟩
    rcases nodeDepth_cases hd with ⟨m, hm, hmi, hmp, hcon⟩ | ⟨m, hm, hmi, p, e, hmp, he, hde⟩
    · cases hcon
    · have hmn : m = n := eq_of_mem_of_id_eq hu hm hn hmi
      subst hmn
      have hed : e = d := by omega
      subst hed
      obtain ⟨q, hq, hqi⟩ : ∃ q ∈ nodes, q.id = p := by
        rcases nodeDepth_cases he with ⟨q, hq, hqi, _, _⟩ | ⟨q, hq, hqi, _, _, _, _, _⟩
        · exact ⟨q, hq, hqi⟩
        · exact ⟨q, hq, hqi⟩
      have hpne : p ≠ "" := fun hpe =>
        hne (hpe ▸ hqi ▸ List.mem_map_of_mem TreeNode.id hq)
      have hbne : (p == "") = false := beq_eq_false_iff_ne.mpr hpne
      have hfind : findById nodes p = some q := by
        rw [← hqi]; exact findById_of_mem hu hq
      have hdq : NodeDepth nodes q.id e := hqi.symm ▸ he
      obtain ⟨l, hwalk, hlen, hchain, hmem, hhead⟩ :=
        ih q (q :: acc) fuel hq hdq (by omega)
      refine ⟨l ++ [q], ?_, ?_, ?_, ?_, ?_⟩
      · simp only [breadcrumbWalk, hmp, hbne, Bool.false_eq_true, if_false, hfind]
        rw [hwalk]
        simp
      · simp [hlen]
      · refine List.Chain'.append hchain (List.chain'_singleton m) ?_
        intro x hx y hy
        simp [List.getLast?_concat] at hx
        simp at hy
        subst hx; subst hy
        rw [hmp, hqi]
      · intro x hx
        rw [List.append_assoc] at hx
        rcases List.mem_append.mp hx with hx | hx
        · exact hmem x (List.mem_append.mpr (Or.inl hx))
        · simp at hx
          rcases hx with rfl | rfl
          · exact hq
          · exact hn
      · intro hd0 hhd0
        apply hhead
        cases l with
        | nil => simpa using hhd0
        | cons a t => simpa using hhd0

/-- Claim C5 (amended): on a node set forming a tree with unique ids, none
of them the empty string, the breadcrumb path of a member at depth d — for
any step budget exceeding d — is a sequence of exactly d + 1 nodes that
starts at a root of the set and ends at the member, each element being the
parent of the next. -/
theorem breadcrumbPath_depth_spec (nodes : List TreeNode) (n : TreeNode) (d fuel : Nat)
    (hu : UniqueIds nodes) (hne : "" ∉ nodes.map TreeNode.id) (hn : n ∈ nodes)
    (hd : NodeDepth nodes n.id d) (hf : d < fuel) :
    ∃ path, calculateBreadcrumbPath nodes fuel n.id = some path ∧
      path.length = d + 1 ∧ path.getLast? = some n ∧
      (∀ r, path.head? = some r → r ∈ nodes ∧ r.parentId = none) ∧
      List.Chain' (fun a b => b.parentId = some a.id) path := by
  obtain ⟨l, hwalk, hlen, hchain, hmem, hhead⟩ :=
    breadcrumbWalk_spec hu hne d n [] fuel hn hd hf
  refine ⟨l ++ [n], ?_, ?_, ?_, ?_, hchain⟩
  · simp only [calculateBreadcrumbPath, findById_of_mem hu hn, hwalk]
    simp
  · simp [hlen]
  · simp [List.getLast?_concat]
  · intro r hr
    refine ⟨hmem r ?_, hhead r hr⟩
    cases hl : l ++ [n] with
    | nil => rw [hl] at hr; cases hr
    | cons a t =>
      rw [hl] at hr
      simp at hr
      subst hr
      exact List.mem_cons_self _ _

/-- A root whose id is the empty string. -/
def eRoot : TreeNode :=
  { id := "", label := "topic", description := none, parentId := none, position := ⟨1, 1⟩ }

/-- A child whose parentId is the (falsy) empty string. -/
def eChild : TreeNode :=
  { id := "c", label := "C", description := none, parentId := some "", position := ⟨2, 2⟩ }

/-- A well-formed two-node tree whose root id is the empty string. -/
def emptyRootNodes : List TreeNode := [eRoot, eChild]

/-- Counterexample to claim C5 as stated: on a tree whose root id is the
empty string, the while condition of the breadcrumb walk treats the
parentId of the child (the empty string) as falsy and exits at once, so a
node at depth 1 gets a path of length 1 that does not start at the root. -/
theorem breadcrumbPath_counterexample :
    NodeDepth emptyRootNodes "c" 1 ∧
    calculateBreadcrumbPath emptyRootNodes 2 "c" = some [eChild] ∧
    ([eChild] : List TreeNode).length ≠ 1 + 1 := by
  refine ⟨?_, by decide, by decide⟩
  exact NodeDepth.step eChild "" 0 (by decide) rfl (NodeDepth.root eRoot (by decide) rfl)

/-- Witness for claim C5 (amended): the breadcrumb of the grandchild bNode
in sFour has three nodes, starts at the root, and ends at bNode. -/
theorem breadcrumbPath_depth_spec_witness :
    ∃ path, calculateBreadcrumbPath sFour.nodes 4 bNode.id = some path ∧
      path.length = 2 + 1 ∧ path.getLast? = some bNode ∧
      (∀ r, path.head? = some r → r ∈ sFour.nodes ∧ r.parentId = none) ∧
      List.Chain' (fun a b => b.parentId = some a.id) path :=
  breadcrumbPath_depth_spec sFour.nodes bNode 2 4 (by unfold UniqueIds; decide)
    (by decide) (by decide) nodeDepth_b_sFour (by decide)

/-- A node in a two-cycle. -/
def aCyc : TreeNode :=
  { id := "a", label := "A", description := none, parentId := some "b", position := ⟨1, 1⟩ }

/-- The other node of the two-cycle. -/
def bCyc : TreeNode :=
  { id := "b", label := "B", description := none, parentId := some "a", position := ⟨2, 2⟩ }

/-- A node set whose parentId links form a cycle. -/
def cycNodes : List TreeNode := [aCyc, bCyc]

/-- On the cyclic node set, the walk exhausts every step budget from either
node of the cycle. -/
theorem cyc_walk (fuel : Nat) :
    ∀ acc, breadcrumbWalk cycNodes fuel aCyc acc = none ∧
      breadcrumbWalk cycNodes fuel bCyc acc = none := by
  induction fuel with
  | zero => intro acc; exact ⟨rfl, rfl⟩
  | succ f ih =>
    intro acc
    constructor
    · have hstep : breadcrumbWalk cycNodes (f + 1) aCyc acc =
          breadcrumbWalk cycNodes f bCyc (bCyc :: acc) := rfl
      rw [hstep]
      exact (ih _).2
    · have hstep : breadcrumbWalk cycNodes (f + 1) bCyc acc =
          breadcrumbWalk cycNodes f aCyc (aCyc :: acc) := rfl
      rw [hstep]
      exact (ih _).1

/-- Claim C6 is violated by the source: on a node set whose parentId links
contain a cycle, the breadcrumb upward walk of calculateBreadcrumbPath
never terminates — for every step budget the loop is still running — since
the source implements no cap on the traversal, while the claim requires
traversal capped at the total node count with overflow treated as a
data-integrity error. -/
theorem breadcrumbPath_cycle_no_cap :
    ∀ fuel, calculateBreadcrumbPath cycNodes fuel "a" = none := by
  intro fuel
  have hfind : findById cycNodes "a" = some aCyc := rfl
  simp only [calculateBreadcrumbPath, hfind]
  rw [(cyc_walk fuel []).1]
  rfl
